import Mathlib

/-!
Formal model of the invoice reconciliation program (`src/main.py`).

Monetary amounts are modelled as rationals (`ℚ`), calendar dates as
integers (`ℤ`, an ordinal day number).  The pandas data frames become
Lean lists; the data-frame index that identifies a row of the invoice
frame becomes the position of the invoice in the list.  The Python
`list.sort` call of the company report is guaranteed stable and is
modelled by a stable insertion sort.  The candidate sort of the
allocation engine uses pandas `sort_values` with its default
`kind='quicksort'`, which is documented as not stable: the executable
model below fixes one admissible order (the stable one) so the engine
can run, while every statement that depends on the equal-date
tie-break is made against the documented contract `DateSorted` (any
permutation of the candidates, ascending by date), which leaves the
tie order unspecified.
-/

/-- Invoice status, modelling the Russian status strings of `main.py`:
unpaid, partially paid, fully paid. -/
inductive Status where
  | unpaid
  | partiallyPaid
  | fullyPaid
deriving DecidableEq

/-- One row of the invoice frame built by `load_invoices`: columns
`Invoice_Num`, `VOEN`, `Company_Name`, `Invoice_Date`, `Total_Amount`,
`Remaining_Amount`, `Status`.  The loader initialises
`Remaining_Amount` to `Total_Amount` and `Status` to unpaid. -/
structure Invoice where
  num : ℕ
  voen : String
  company : String
  date : ℤ
  total : ℚ
  remaining : ℚ
  status : Status
deriving DecidableEq

/-- One row of the bank-history frame built by `load_bank_history`:
columns `Payment_VOEN`, `Payment_Date`, `Payment_Amount`,
`Description`. -/
structure Payment where
  voen : String
  date : ℤ
  amount : ℚ
  description : String
deriving DecidableEq

/-- The three row shapes appended to `reconciliation_results`:
rows from the inner candidate loop (matched to an invoice), the
no-match row (`Платеж без соответствия`), and the leftover row
(`Остаток платежа: ...`). -/
inductive Outcome where
  | matchedToInvoice
  | noMatchFound
  | partialLeftover
deriving DecidableEq

/-- One element of `reconciliation_results` in `reconcile_invoices`.
`invoiceIdx` is the working-frame index `inv_idx` of the invoice the
row refers to (`none` for the two trailing row shapes); `note` is the
leftover amount embedded in the `Остаток платежа` status string. -/
structure AllocationEvent where
  payDate : ℤ
  payVoen : String
  payAmount : ℚ
  description : String
  applied : ℚ
  invoiceIdx : Option ℕ
  invoiceNum : Option ℕ
  invoiceTotal : Option ℚ
  invoiceRemainingAfter : Option ℚ
  outcome : Outcome
  note : Option ℚ
deriving DecidableEq

/-- Does the character list start with at least 10 characters whose
first 10 are all digits? -/
def tenDigitsAt (cs : List Char) : Bool :=
  decide (10 ≤ cs.length) && (cs.take 10).all Char.isDigit

/-- Leftmost run of 10 consecutive digits in a character list, if any
(the semantics of searching for the regular expression `\d{10}`). -/
def findTenDigits : List Char → Option (List Char)
  | [] => none
  | c :: t => if tenDigitsAt (c :: t) then some ((c :: t).take 10) else findTenDigits t

/-- The function `clean_voen` applied to one cell: extract the leftmost 10-digit run
from the raw string, or the empty string when there is none
(`str.extract(r'(\d{10})').fillna('')`). -/
def cleanVoen (s : String) : String :=
  match findTenDigits s.data with
  | some ds => String.mk ds
  | none => ""

/-- Insert `a` into `l` before the first element `b` with `le a b`
false ... i.e. before the first element not strictly smaller: `a` is
placed in front of the first `b` such that `le a b` holds, so elements
comparing equal to `a` that were already in `l` stay behind `a` only
when they come strictly earlier.  Together with `stableSort` this is a
stable sort. -/
def insertSorted (le : α → α → Bool) (a : α) : List α → List α
  | [] => [a]
  | b :: t => if le a b then a :: b :: t else b :: insertSorted le a t

/-- Stable insertion sort; the model of the single-key
`sort_values(by=...)` and `list.sort(key=...)` calls of `main.py`. -/
def stableSort (le : α → α → Bool) : List α → List α
  | [] => []
  | a :: t => insertSorted le a (stableSort le t)

/-- Pair every element with its position, starting from `n`; the model
of the data-frame index. -/
def withIdx : ℕ → List α → List (ℕ × α)
  | _, [] => []
  | n, a :: t => (n, a) :: withIdx (n + 1) t

/-- Date order on indexed invoices, the key of
`sort_values(by='Invoice_Date')`. -/
def dateLe (a b : ℕ × Invoice) : Bool :=
  decide (a.2.date ≤ b.2.date)

/-- The `matching_invoices` selection of `reconcile_invoices`: rows of
the working frame whose `VOEN` equals the payment's and whose
`Remaining_Amount` is positive, sorted ascending by invoice date.
The program's `sort_values` defaults to unstable quicksort, so its
equal-date tie order is unspecified; this executable model fixes one
admissible order (encounter order on ties).  Tie-break-sensitive
properties are stated against `DateSorted` instead. -/
def matchingInvoices (st : List Invoice) (p : Payment) : List (ℕ × Invoice) :=
  stableSort dateLe
    ((withIdx 0 st).filter (fun x => decide (x.2.voen = p.voen ∧ 0 < x.2.remaining)))

/-- The in-place update of the working frame: subtract the applied
amount from `Remaining_Amount` at index `i` and recompute `Status`
(fully paid when the new remainder is `≤ 0`, partially paid when it is
below `Total_Amount`, otherwise unchanged). -/
def updateInvoice (st : List Invoice) (i : ℕ) (applied : ℚ) : List Invoice :=
  match st[i]? with
  | none => st
  | some inv =>
      let r := inv.remaining - applied
      let s : Status :=
        if r ≤ 0 then .fullyPaid
        else if r < inv.total then .partiallyPaid
        else inv.status
      st.set i { inv with remaining := r, status := s }

/-- The `Remaining_Amount` value read back from the working frame at index `i`
(the value written into the matched row). -/
def remainingAfter (st : List Invoice) (i : ℕ) : ℚ :=
  ((st[i]?).map Invoice.remaining).getD 0

/-- A row appended from the inner candidate loop. -/
def matchedEvent (p : Payment) (i : ℕ) (inv : Invoice) (applied after : ℚ) : AllocationEvent :=
  { payDate := p.date, payVoen := p.voen, payAmount := p.amount,
    description := p.description, applied := applied, invoiceIdx := some i,
    invoiceNum := some inv.num, invoiceTotal := some inv.total,
    invoiceRemainingAfter := some after, outcome := .matchedToInvoice, note := none }

/-- The `Платеж без соответствия` row: the payment matched nothing. -/
def noMatchEvent (p : Payment) : AllocationEvent :=
  { payDate := p.date, payVoen := p.voen, payAmount := p.amount,
    description := p.description, applied := 0, invoiceIdx := none,
    invoiceNum := none, invoiceTotal := none, invoiceRemainingAfter := none,
    outcome := .noMatchFound, note := none }

/-- The `Остаток платежа` row: part of the payment was applied and
`leftover` remains. -/
def leftoverEvent (p : Payment) (leftover : ℚ) : AllocationEvent :=
  { payDate := p.date, payVoen := p.voen, payAmount := p.amount,
    description := p.description, applied := p.amount - leftover, invoiceIdx := none,
    invoiceNum := none, invoiceTotal := none, invoiceRemainingAfter := none,
    outcome := .partialLeftover, note := some leftover }

/-- Result of the inner candidate loop of `reconcile_invoices`:
the working frame, `current_payment_amount`, the `payment_processed`
flag and the rows appended during the loop. -/
structure LoopResult where
  state : List Invoice
  remainingPayment : ℚ
  processed : Bool
  events : List AllocationEvent
deriving DecidableEq

/-- The inner candidate loop (`for inv_idx, invoice in
matching_invoices.iterrows()`): break once the payment is exhausted,
otherwise apply `min(current_payment_amount, invoice remaining)` to the
invoice at `inv_idx`, update the working frame and append a matched
row. -/
def applyCands (p : Payment) :
    List (ℕ × Invoice) → List Invoice → ℚ → Bool → LoopResult
  | [], st, cpa, proc => ⟨st, cpa, proc, []⟩
  | (i, inv) :: rest, st, cpa, proc =>
    if cpa ≤ 0 then ⟨st, cpa, proc, []⟩
    else
      let applied := min cpa inv.remaining
      let st' := updateInvoice st i applied
      let r := applyCands p rest st' (cpa - applied) true
      ⟨r.state, r.remainingPayment, r.processed,
        matchedEvent p i inv applied (remainingAfter st' i) :: r.events⟩

/-- Processing of one bank transaction in `reconcile_invoices`: run the
candidate loop and then append the no-match row or the leftover row,
exactly as the two trailing `if`/`elif` branches do. -/
def processPayment (st : List Invoice) (p : Payment) : List Invoice × List AllocationEvent :=
  let r := applyCands p (matchingInvoices st p) st p.amount false
  if 0 < r.remainingPayment ∧ r.processed = false then
    (r.state, r.events ++ [noMatchEvent p])
  else if 0 < r.remainingPayment ∧ r.processed = true then
    (r.state, r.events ++ [leftoverEvent p r.remainingPayment])
  else
    (r.state, r.events)

/-- The full allocation pass of `reconcile_invoices`: fold over the
bank transactions in input order, starting from the working copy of
the invoice frame, collecting the rows in emission order. -/
def reconcile : List Invoice → List Payment → List Invoice × List AllocationEvent
  | st, [] => (st, [])
  | st, p :: rest =>
    let a := processPayment st p
    let b := reconcile a.1 rest
    (b.1, a.2 ++ b.2)

/-- Rows of an event list that are matched to some invoice. -/
def matchedOf (evs : List AllocationEvent) : List AllocationEvent :=
  evs.filter (fun e => decide (e.outcome = Outcome.matchedToInvoice))

/-- Rows of an event list that are not matched to an invoice (the two
trailing row shapes). -/
def trailingOf (evs : List AllocationEvent) : List AllocationEvent :=
  evs.filter (fun e => decide (e.outcome ≠ Outcome.matchedToInvoice))

/-- Total applied amount recorded against the invoice at working-frame
index `k` by the matched rows of an event list. -/
def sumAppliedTo (k : ℕ) (evs : List AllocationEvent) : ℚ :=
  ((evs.filter (fun e =>
    decide (e.outcome = Outcome.matchedToInvoice ∧ e.invoiceIdx = some k))).map
    AllocationEvent.applied).sum

/-- The leftover a payment's event list reports: the note of its
leftover row, the full amount when its only row is a no-match row, and
zero otherwise. -/
def leftoverOf (p : Payment) (evs : List AllocationEvent) : ℚ :=
  match trailingOf evs with
  | [e] =>
    match e.outcome with
    | .noMatchFound => p.amount
    | .partialLeftover => e.note.getD 0
    | .matchedToInvoice => 0
  | _ => 0

/-- The ledger row kinds of the company report. -/
inductive LedgerKind where
  | invoiceKind
  | paymentKind
deriving DecidableEq

/-- One element of a `company_events` list in
`generate_company_report`: date, type, (unsigned) amount and
description. -/
structure LedgerEvent where
  date : ℤ
  kind : LedgerKind
  amount : ℚ
  description : String
deriving DecidableEq

/-- The signed amount a ledger row contributes to the balance:
`+Amount` for an invoice row, `-Amount` for a payment row. -/
def signedAmount (e : LedgerEvent) : ℚ :=
  match e.kind with
  | .invoiceKind => e.amount
  | .paymentKind => -e.amount

/-- First-occurrence deduplication, the model of `pandas.unique`. -/
def uniqueFirst [DecidableEq α] (l : List α) : List α :=
  l.foldl (fun acc x => if x ∈ acc then acc else acc ++ [x]) []

/-- Lexicographic code-point order on character lists, the order pandas
uses on string group keys. -/
def charListLe : List Char → List Char → Bool
  | [], _ => true
  | _ :: _, [] => false
  | c :: cs, d :: ds =>
    if c < d then true
    else if d < c then false
    else charListLe cs ds

/-- Lexicographic code-point order on strings. -/
def strLe (a b : String) : Bool := charListLe a.data b.data

/-- The `company_voen_map` mapping: group the invoice frame by `Company_Name`
(pandas `groupby` sorts the group keys) and collect each company's
distinct `VOEN`s in encounter order. -/
def companyVoenMap (invs : List Invoice) : List (String × List String) :=
  (stableSort strLe (uniqueFirst (invs.map Invoice.company))).map
    (fun n => (n, uniqueFirst ((invs.filter (fun i => decide (i.company = n))).map Invoice.voen)))

/-- The payment-attribution loop (`for company, voens in
company_voen_map.items(): ... break`): the first company in map order
whose VOEN list contains the payment's VOEN. -/
def findCompany : List (String × List String) → String → Option String
  | [], _ => none
  | (n, vs) :: rest, voen => if voen ∈ vs then some n else findCompany rest voen

/-- The ledger row added for an invoice: type `Invoice`, the original
`Total_Amount`, description `INV <num>`. -/
def invoiceEntry (i : Invoice) : LedgerEvent :=
  { date := i.date, kind := .invoiceKind, amount := i.total,
    description := "INV " ++ toString i.num }

/-- The ledger row added for a payment attributed to a company. -/
def paymentEntry (p : Payment) : LedgerEvent :=
  { date := p.date, kind := .paymentKind, amount := p.amount,
    description := p.description }

/-- The `company_events` list of one company before sorting: its
invoice rows in invoice encounter order, then the payment rows of the
payments attributed to it, in payment order. -/
def companyEventList (invs : List Invoice) (pays : List Payment) (c : String) : List LedgerEvent :=
  (invs.filter (fun i => decide (i.company = c))).map invoiceEntry ++
  (pays.filter (fun p => decide (findCompany (companyVoenMap invs) p.voen = some c))).map
    paymentEntry

/-- Date order on ledger rows, the key of
`events.sort(key=lambda x: x['Date'])`. -/
def ledgerDateLe (a b : LedgerEvent) : Bool :=
  decide (a.date ≤ b.date)

/-- A company's ledger after the stable ascending-by-date sort. -/
def sortedLedger (invs : List Invoice) (pays : List Payment) (c : String) : List LedgerEvent :=
  stableSort ledgerDateLe (companyEventList invs pays c)

/-- The running-balance loop of the report writer, starting from
`bal`: each row is written together with the balance after it. -/
def withBalancesFrom (bal : ℚ) : List LedgerEvent → List (LedgerEvent × ℚ)
  | [] => []
  | e :: t => (e, bal + signedAmount e) :: withBalancesFrom (bal + signedAmount e) t

/-- The rows of one company block together with the `Баланс` column,
as written by `generate_company_report` (balance starts at 0). -/
def withBalances (evs : List LedgerEvent) : List (LedgerEvent × ℚ) :=
  withBalancesFrom 0 evs

/-- The final value of the `balance` variable after the event loop,
written into the `Итог` row. -/
def finalBalance (evs : List LedgerEvent) : ℚ :=
  evs.foldl (fun b e => b + signedAmount e) 0

/-- Strict ascending order by invoice date with equal-date ties broken
by the working-frame index: the stable visiting order the spec
asserts.  The code's sort contract does not entail it (see
`oldest_first_counterexample`). -/
def lexDateIdx (a b : ℕ × Invoice) : Prop :=
  a.2.date < b.2.date ∨ (a.2.date = b.2.date ∧ a.1 < b.1)

/-- What `sort_values(by='Invoice_Date')` with the default
`kind='quicksort'` guarantees about the candidate order, per the
pandas documentation: some permutation of the selected rows, ascending
by date.  The equal-date tie order is not specified (quicksort is not
stable). -/
def DateSorted (st : List Invoice) (p : Payment) (l : List (ℕ × Invoice)) : Prop :=
  l.Perm ((withIdx 0 st).filter (fun x => decide (x.2.voen = p.voen ∧ 0 < x.2.remaining))) ∧
  l.Pairwise (fun a b => dateLe a b = true)

/-! Concrete sample records, used to instantiate the theorems -/

/-- Sample invoice: oldest invoice of VOEN `1234567890`. -/
def invA : Invoice := ⟨1, "1234567890", "Alpha", 1, 1000, 1000, .unpaid⟩

/-- Sample invoice: newer invoice of the same VOEN as `invA`. -/
def invB : Invoice := ⟨2, "1234567890", "Alpha", 32, 500, 500, .unpaid⟩

/-- Sample invoice with an empty (unextractable) VOEN. -/
def invE : Invoice := ⟨3, "", "Beta", 10, 50, 50, .unpaid⟩

/-- Sample payment matching `invA`/`invB`, smaller than `invA`'s balance. -/
def payMain : Payment := ⟨"1234567890", 60, 700, "wire"⟩

/-- Sample zero-amount payment. -/
def payZero : Payment := ⟨"1234567890", 61, 0, "zero"⟩

/-- Sample payment with an empty VOEN. -/
def payEmpty : Payment := ⟨"", 62, 5, "anon"⟩

/-- Sample payment whose VOEN matches no invoice. -/
def payNine : Payment := ⟨"9999999999", 63, 100, "stray"⟩

/-- Sample payment exceeding every open balance of its VOEN. -/
def payBig : Payment := ⟨"1234567890", 64, 2000, "big"⟩

/-- Sample invoice with the same date as `invD2`, encountered first. -/
def invD1 : Invoice := ⟨7, "5555555555", "Delta", 5, 100, 100, .unpaid⟩

/-- Sample invoice with the same date as `invD1`, encountered second. -/
def invD2 : Invoice := ⟨8, "5555555555", "Delta", 5, 80, 80, .unpaid⟩

/-- Sample payment whose VOEN matches the two equal-date invoices. -/
def payTie : Payment := ⟨"5555555555", 60, 10, "tie"⟩

/-- Sample post-allocation mutation of the working copy: zero the
remaining amount and mark the invoice fully paid, leaving the original
immutable fields alone. -/
def updZero (i : Invoice) : Invoice :=
  { i with remaining := 0, status := .fullyPaid }

/-! Properties of the stable insertion sort -/

theorem mem_insertSorted (le : α → α → Bool) (a x : α) (l : List α) :
    x ∈ insertSorted le a l ↔ x = a ∨ x ∈ l := by
  induction l with
  | nil => simp [insertSorted]
  | cons b t ih =>
    by_cases h : le a b
    · rw [insertSorted, if_pos h]
      exact List.mem_cons
    · rw [insertSorted, if_neg h]
      simp only [List.mem_cons, ih]
      tauto

theorem insertSorted_perm (le : α → α → Bool) (a : α) (l : List α) :
    (insertSorted le a l).Perm (a :: l) := by
  induction l with
  | nil => simp [insertSorted]
  | cons b t ih =>
    by_cases h : le a b
    · simp [insertSorted, h]
    · simp only [insertSorted, h, if_neg, Bool.false_eq_true, not_false_iff, ite_false]
      exact (ih.cons b).trans (List.Perm.swap a b t)

theorem stableSort_perm (le : α → α → Bool) (l : List α) :
    (stableSort le l).Perm l := by
  induction l with
  | nil => simp [stableSort]
  | cons a t ih =>
    exact (insertSorted_perm le a (stableSort le t)).trans (ih.cons a)

theorem pairwise_insertSorted (le : α → α → Bool)
    (total : ∀ x y, le x y = true ∨ le y x = true)
    (trans : ∀ x y z, le x y = true → le y z = true → le x z = true)
    (a : α) (l : List α) (h : l.Pairwise (fun x y => le x y = true)) :
    (insertSorted le a l).Pairwise (fun x y => le x y = true) := by
  induction l with
  | nil => simp [insertSorted]
  | cons b t ih =>
    rcases List.pairwise_cons.mp h with ⟨hb, ht⟩
    by_cases hab : le a b = true
    · rw [insertSorted, if_pos hab]
      refine List.pairwise_cons.mpr ⟨?_, h⟩
      intro x hx
      rcases List.mem_cons.mp hx with rfl | hx
      · exact hab
      · exact trans a b x hab (hb x hx)
    · rw [insertSorted, if_neg hab]
      refine List.pairwise_cons.mpr ⟨?_, ih ht⟩
      intro x hx
      rcases (mem_insertSorted le a x t).mp hx with heq | hx
      · rw [heq]
        rcases total a b with h1 | h1
        · exact absurd h1 hab
        · exact h1
      · exact hb x hx

theorem sorted_stableSort (le : α → α → Bool)
    (total : ∀ x y, le x y = true ∨ le y x = true)
    (trans : ∀ x y z, le x y = true → le y z = true → le x z = true)
    (l : List α) : (stableSort le l).Pairwise (fun x y => le x y = true) := by
  induction l with
  | nil => simp [stableSort]
  | cons a t ih => exact pairwise_insertSorted le total trans a (stableSort le t) ih

/-! Properties of the index pairing -/

theorem mem_withIdx (l : List α) :
    ∀ (n i : ℕ) (x : α), (i, x) ∈ withIdx n l → n ≤ i ∧ l[i - n]? = some x := by
  induction l with
  | nil => intro n i x h; simp [withIdx] at h
  | cons a t ih =>
    intro n i x h
    rw [withIdx, List.mem_cons] at h
    rcases h with h | h
    · injection h with h1 h2
      subst h1
      subst h2
      simp
    · obtain ⟨h1, h2⟩ := ih (n + 1) i x h
      refine ⟨by omega, ?_⟩
      have : i - n = (i - (n + 1)) + 1 := by omega
      rw [this]
      simpa using h2

theorem withIdx_pairwise (l : List α) :
    ∀ n : ℕ, (withIdx n l).Pairwise (fun a b => a.1 < b.1) := by
  induction l with
  | nil => intro n; simp [withIdx]
  | cons a t ih =>
    intro n
    rw [withIdx]
    refine List.pairwise_cons.mpr ⟨?_, ih (n + 1)⟩
    intro x hx
    have := mem_withIdx t (n + 1) x.1 x.2 (by simpa using hx)
    omega

theorem dateLe_true_iff (a b : ℕ × Invoice) : dateLe a b = true ↔ a.2.date ≤ b.2.date := by
  simp [dateLe]



theorem matchingInvoices_perm (st : List Invoice) (p : Payment) :
    (matchingInvoices st p).Perm
      ((withIdx 0 st).filter (fun x => decide (x.2.voen = p.voen ∧ 0 < x.2.remaining))) :=
  stableSort_perm dateLe _


theorem matchingInvoices_keys (st : List Invoice) (p : Payment) :
    (matchingInvoices st p).Pairwise (fun a b => a.1 ≠ b.1) := by
  have h1 : ((withIdx 0 st).filter
      (fun x => decide (x.2.voen = p.voen ∧ 0 < x.2.remaining))).Pairwise
      (fun a b => (a : ℕ × Invoice).1 < b.1) :=
    (withIdx_pairwise st 0).filter _
  have h2 := h1.imp (fun hlt => Nat.ne_of_lt hlt)
  exact ((matchingInvoices_perm st p).pairwise_iff (fun h => Ne.symm h)).mpr h2

theorem mem_matchingInvoices {st : List Invoice} {p : Payment} {x : ℕ × Invoice}
    (hx : x ∈ matchingInvoices st p) :
    st[x.1]? = some x.2 ∧ x.2.voen = p.voen ∧ 0 < x.2.remaining := by
  have h1 := (matchingInvoices_perm st p).mem_iff.mp hx
  rcases List.mem_filter.mp h1 with ⟨hmem, hpred⟩
  have h2 := mem_withIdx st 0 x.1 x.2 (by simpa using hmem)
  have h3 := of_decide_eq_true hpred
  exact ⟨by simpa using h2.2, h3⟩

/-! Properties of the working-frame update -/

theorem updateInvoice_some {st : List Invoice} {i : ℕ} {inv : Invoice}
    (h : st[i]? = some inv) (a : ℚ) :
    updateInvoice st i a =
      st.set i { inv with remaining := inv.remaining - a,
                          status :=
                            if inv.remaining - a ≤ 0 then .fullyPaid
                            else if inv.remaining - a < inv.total then .partiallyPaid
                            else inv.status } := by
  rw [updateInvoice, h]

theorem getElem?_updateInvoice_ne (st : List Invoice) (i : ℕ) (a : ℚ) {j : ℕ}
    (h : i ≠ j) : (updateInvoice st i a)[j]? = st[j]? := by
  rw [updateInvoice]
  cases hst : st[i]? with
  | none => rfl
  | some inv => simp [List.getElem?_set_ne, h]

theorem getElem?_updateInvoice_self {st : List Invoice} {i : ℕ} {inv : Invoice}
    (h : st[i]? = some inv) (a : ℚ) :
    (updateInvoice st i a)[i]? =
      some { inv with remaining := inv.remaining - a,
                      status :=
                        if inv.remaining - a ≤ 0 then .fullyPaid
                        else if inv.remaining - a < inv.total then .partiallyPaid
                        else inv.status } := by
  rw [updateInvoice_some h a]
  have hlt : i < st.length := by
    rcases List.getElem?_eq_some.mp h with ⟨hl, _⟩
    exact hl
  simp [List.getElem?_set_self, hlt]

/-! Accounting lemmas for the candidate loop -/

theorem sumAppliedTo_nil (k : ℕ) : sumAppliedTo k [] = 0 := rfl

theorem sumAppliedTo_cons (k : ℕ) (e : AllocationEvent) (evs : List AllocationEvent) :
    sumAppliedTo k (e :: evs) =
      (if e.outcome = Outcome.matchedToInvoice ∧ e.invoiceIdx = some k then e.applied else 0) +
        sumAppliedTo k evs := by
  rw [sumAppliedTo, List.filter_cons]
  by_cases h : e.outcome = Outcome.matchedToInvoice ∧ e.invoiceIdx = some k
  · simp [h, sumAppliedTo]
  · simp [h, sumAppliedTo]

theorem sumAppliedTo_append (k : ℕ) (l₁ l₂ : List AllocationEvent) :
    sumAppliedTo k (l₁ ++ l₂) = sumAppliedTo k l₁ + sumAppliedTo k l₂ := by
  simp [sumAppliedTo, List.filter_append]

theorem applyCands_spec (p : Payment) :
    ∀ (cands : List (ℕ × Invoice)) (st : List Invoice) (cpa : ℚ) (proc : Bool)
      (k : ℕ) (inv : Invoice), st[k]? = some inv →
      ∃ inv', (applyCands p cands st cpa proc).state[k]? = some inv' ∧
        inv'.remaining = inv.remaining - sumAppliedTo k (applyCands p cands st cpa proc).events ∧
        inv'.num = inv.num ∧ inv'.voen = inv.voen ∧ inv'.company = inv.company ∧
        inv'.date = inv.date ∧ inv'.total = inv.total := by
  intro cands
  induction cands with
  | nil =>
    intro st cpa proc k inv h
    exact ⟨inv, h, by simp [applyCands, sumAppliedTo_nil], rfl, rfl, rfl, rfl, rfl⟩
  | cons hd rest ih =>
    obtain ⟨i, cinv⟩ := hd
    intro st cpa proc k inv h
    by_cases hcpa : cpa ≤ 0
    · rw [applyCands, if_pos hcpa]
      exact ⟨inv, h, by simp [sumAppliedTo_nil], rfl, rfl, rfl, rfl, rfl⟩
    · rw [applyCands, if_neg hcpa]
      simp only
      by_cases hk : k = i
      · subst hk
        have hset := getElem?_updateInvoice_self h (min cpa cinv.remaining)
        obtain ⟨inv', h1, h2, h3, h4, h5, h6, h7⟩ :=
          ih (updateInvoice st k (min cpa cinv.remaining)) (cpa - min cpa cinv.remaining)
            true k _ hset
        refine ⟨inv', h1, ?_, h3, h4, h5, h6, h7⟩
        rw [h2, sumAppliedTo_cons]
        simp [matchedEvent]
        ring
      · have hset : (updateInvoice st i (min cpa cinv.remaining))[k]? = some inv := by
          rw [getElem?_updateInvoice_ne st i _ (fun he => hk he.symm)]
          exact h
        obtain ⟨inv', h1, h2, h3, h4, h5, h6, h7⟩ :=
          ih (updateInvoice st i (min cpa cinv.remaining)) (cpa - min cpa cinv.remaining)
            true k inv hset
        refine ⟨inv', h1, ?_, h3, h4, h5, h6, h7⟩
        rw [h2, sumAppliedTo_cons]
        have : ¬((matchedEvent p i cinv (min cpa cinv.remaining)
            (remainingAfter (updateInvoice st i (min cpa cinv.remaining)) i)).outcome =
              Outcome.matchedToInvoice ∧
            (matchedEvent p i cinv (min cpa cinv.remaining)
              (remainingAfter (updateInvoice st i (min cpa cinv.remaining)) i)).invoiceIdx =
              some k) := by
          simp [matchedEvent]
          intro he
          exact hk he.symm
        rw [if_neg this]
        ring

theorem applyCands_cpa (p : Payment) :
    ∀ (cands : List (ℕ × Invoice)) (st : List Invoice) (cpa : ℚ) (proc : Bool),
      (applyCands p cands st cpa proc).remainingPayment =
        cpa - (((applyCands p cands st cpa proc).events.map AllocationEvent.applied)).sum := by
  intro cands
  induction cands with
  | nil => intro st cpa proc; simp [applyCands]
  | cons hd rest ih =>
    obtain ⟨i, cinv⟩ := hd
    intro st cpa proc
    by_cases hcpa : cpa ≤ 0
    · rw [applyCands, if_pos hcpa]; simp
    · rw [applyCands, if_neg hcpa]
      simp only [List.map_cons, List.sum_cons]
      rw [ih]
      simp [matchedEvent]
      ring

theorem applyCands_processed (p : Payment) :
    ∀ (cands : List (ℕ × Invoice)) (st : List Invoice) (cpa : ℚ) (proc : Bool),
      (applyCands p cands st cpa proc).processed =
        (proc || !(applyCands p cands st cpa proc).events.isEmpty) := by
  intro cands
  induction cands with
  | nil => intro st cpa proc; simp [applyCands]
  | cons hd rest ih =>
    obtain ⟨i, cinv⟩ := hd
    intro st cpa proc
    by_cases hcpa : cpa ≤ 0
    · rw [applyCands, if_pos hcpa]; simp
    · rw [applyCands, if_neg hcpa]
      simp only
      rw [ih]
      simp

theorem applyCands_cpa_nonneg (p : Payment) :
    ∀ (cands : List (ℕ × Invoice)) (st : List Invoice) (cpa : ℚ) (proc : Bool),
      0 ≤ cpa → 0 ≤ (applyCands p cands st cpa proc).remainingPayment := by
  intro cands
  induction cands with
  | nil => intro st cpa proc h; simpa [applyCands] using h
  | cons hd rest ih =>
    obtain ⟨i, cinv⟩ := hd
    intro st cpa proc h
    by_cases hcpa : cpa ≤ 0
    · rw [applyCands, if_pos hcpa]; simpa using h
    · rw [applyCands, if_neg hcpa]
      simp only
      refine ih _ _ _ ?_
      have := min_le_left cpa cinv.remaining
      linarith

theorem applyCands_events_shape (p : Payment) :
    ∀ (cands : List (ℕ × Invoice)) (st : List Invoice) (cpa : ℚ) (proc : Bool),
      ∀ e ∈ (applyCands p cands st cpa proc).events,
        e.outcome = Outcome.matchedToInvoice ∧ e.payAmount = p.amount ∧
          ∃ i : ℕ, e.invoiceIdx = some i := by
  intro cands
  induction cands with
  | nil => intro st cpa proc e he; simp [applyCands] at he
  | cons hd rest ih =>
    obtain ⟨i, cinv⟩ := hd
    intro st cpa proc e he
    by_cases hcpa : cpa ≤ 0
    · rw [applyCands, if_pos hcpa] at he; simp at he
    · rw [applyCands, if_neg hcpa] at he
      simp only [List.mem_cons] at he
      rcases he with rfl | he
      · exact ⟨rfl, rfl, i, rfl⟩
      · exact ih _ _ _ e he

theorem applyCands_bounds (p : Payment) :
    ∀ (cands : List (ℕ × Invoice)) (st : List Invoice) (cpa : ℚ) (proc : Bool),
      (∀ x ∈ cands, st[x.1]? = some x.2) →
      cands.Pairwise (fun a b => a.1 ≠ b.1) →
      (∀ (k : ℕ) (inv : Invoice), st[k]? = some inv → 0 ≤ inv.remaining ∧ inv.remaining ≤ inv.total) →
      ((∀ (k : ℕ) (inv : Invoice), (applyCands p cands st cpa proc).state[k]? = some inv →
          0 ≤ inv.remaining ∧ inv.remaining ≤ inv.total) ∧
        (∀ (k : ℕ) (inv inv' : Invoice), st[k]? = some inv →
          (applyCands p cands st cpa proc).state[k]? = some inv' →
          inv'.remaining ≤ inv.remaining ∧ inv'.total = inv.total)) := by
  intro cands
  induction cands with
  | nil =>
    intro st cpa proc hcand hpair hb
    refine ⟨fun k inv hk => hb k inv hk, fun k inv inv' hk hk' => ?_⟩
    rw [applyCands] at hk'
    rw [hk] at hk'
    cases Option.some.inj hk'
    exact ⟨le_refl _, rfl⟩
  | cons hd rest ih =>
    obtain ⟨i, cinv⟩ := hd
    intro st cpa proc hcand hpair hb
    by_cases hcpa : cpa ≤ 0
    · constructor
      · intro k inv hk
        rw [applyCands, if_pos hcpa] at hk
        exact hb k inv hk
      · intro k inv inv' hk hk'
        rw [applyCands, if_pos hcpa] at hk'
        rw [hk] at hk'
        cases Option.some.inj hk'
        exact ⟨le_refl _, rfl⟩
    · have hcons : st[i]? = some cinv := hcand (i, cinv) (List.mem_cons_self _ _)
      have h0 : (0 : ℚ) ≤ min cpa cinv.remaining :=
        le_min (le_of_lt (not_le.mp hcpa)) (hb i cinv hcons).1
      have happ_le : min cpa cinv.remaining ≤ cinv.remaining := min_le_right _ _
      have hset := getElem?_updateInvoice_self hcons (min cpa cinv.remaining)
      have hb' : ∀ (k : ℕ) (inv : Invoice),
          (updateInvoice st i (min cpa cinv.remaining))[k]? = some inv →
          0 ≤ inv.remaining ∧ inv.remaining ≤ inv.total := by
        intro k inv hk
        by_cases hki : k = i
        · subst hki
          rw [hset] at hk
          cases Option.some.inj hk
          refine ⟨sub_nonneg.mpr happ_le, ?_⟩
          exact le_trans (sub_le_self _ h0) (hb k cinv hcons).2
        · rw [getElem?_updateInvoice_ne st i _ (fun he => hki he.symm)] at hk
          exact hb k inv hk
      have hc' : ∀ x ∈ rest, (updateInvoice st i (min cpa cinv.remaining))[x.1]? = some x.2 := by
        intro x hx
        have hne : i ≠ x.1 := (List.pairwise_cons.mp hpair).1 x hx
        rw [getElem?_updateInvoice_ne st i _ hne]
        exact hcand x (List.mem_cons_of_mem _ hx)
      have IH := ih (updateInvoice st i (min cpa cinv.remaining)) (cpa - min cpa cinv.remaining)
        true hc' (List.pairwise_cons.mp hpair).2 hb'
      constructor
      · intro k inv hk
        rw [applyCands, if_neg hcpa] at hk
        exact IH.1 k inv hk
      · intro k inv inv' hk hk'
        rw [applyCands, if_neg hcpa] at hk'
        by_cases hki : k = i
        · subst hki
          rw [hcons] at hk
          cases Option.some.inj hk
          obtain ⟨hle, htot⟩ := IH.2 k _ inv' hset hk'
          constructor
          · exact le_trans hle (sub_le_self _ h0)
          · exact htot
        · have hmid : (updateInvoice st i (min cpa cinv.remaining))[k]? = some inv := by
            rw [getElem?_updateInvoice_ne st i _ (fun he => hki he.symm)]
            exact hk
          exact IH.2 k inv inv' hmid hk'

/-! Per-payment and whole-run lemmas -/

theorem processPayment_state (st : List Invoice) (p : Payment) :
    (processPayment st p).1 = (applyCands p (matchingInvoices st p) st p.amount false).state := by
  rw [processPayment]
  split_ifs <;> rfl

theorem sumAppliedTo_noMatch (k : ℕ) (p : Payment) : sumAppliedTo k [noMatchEvent p] = 0 := by
  simp [sumAppliedTo_cons, sumAppliedTo_nil, noMatchEvent]

theorem sumAppliedTo_leftover (k : ℕ) (p : Payment) (c : ℚ) :
    sumAppliedTo k [leftoverEvent p c] = 0 := by
  simp [sumAppliedTo_cons, sumAppliedTo_nil, leftoverEvent]

theorem sumAppliedTo_processPayment (k : ℕ) (st : List Invoice) (p : Payment) :
    sumAppliedTo k (processPayment st p).2 =
      sumAppliedTo k (applyCands p (matchingInvoices st p) st p.amount false).events := by
  rw [processPayment]
  split_ifs <;>
    simp [sumAppliedTo_append, sumAppliedTo_noMatch, sumAppliedTo_leftover]

theorem processPayment_spec (st : List Invoice) (p : Payment) (k : ℕ) (inv : Invoice)
    (h : st[k]? = some inv) :
    ∃ inv', (processPayment st p).1[k]? = some inv' ∧
      inv'.remaining = inv.remaining - sumAppliedTo k (processPayment st p).2 ∧
      inv'.num = inv.num ∧ inv'.voen = inv.voen ∧ inv'.company = inv.company ∧
      inv'.date = inv.date ∧ inv'.total = inv.total := by
  rw [processPayment_state, sumAppliedTo_processPayment]
  exact applyCands_spec p (matchingInvoices st p) st p.amount false k inv h

theorem processPayment_bounds (st : List Invoice) (p : Payment)
    (hb : ∀ (k : ℕ) (inv : Invoice), st[k]? = some inv →
      0 ≤ inv.remaining ∧ inv.remaining ≤ inv.total) :
    ((∀ (k : ℕ) (inv : Invoice), (processPayment st p).1[k]? = some inv →
        0 ≤ inv.remaining ∧ inv.remaining ≤ inv.total) ∧
      (∀ (k : ℕ) (inv inv' : Invoice), st[k]? = some inv →
        (processPayment st p).1[k]? = some inv' →
        inv'.remaining ≤ inv.remaining ∧ inv'.total = inv.total)) := by
  rw [processPayment_state]
  exact applyCands_bounds p (matchingInvoices st p) st p.amount false
    (fun x hx => (mem_matchingInvoices hx).1) (matchingInvoices_keys st p) hb

theorem reconcile_spec :
    ∀ (pays : List Payment) (st : List Invoice) (k : ℕ) (inv : Invoice),
      st[k]? = some inv →
      ∃ inv', (reconcile st pays).1[k]? = some inv' ∧
        inv'.remaining = inv.remaining - sumAppliedTo k (reconcile st pays).2 ∧
        inv'.num = inv.num ∧ inv'.voen = inv.voen ∧ inv'.company = inv.company ∧
        inv'.date = inv.date ∧ inv'.total = inv.total := by
  intro pays
  induction pays with
  | nil =>
    intro st k inv h
    exact ⟨inv, h, by simp [reconcile, sumAppliedTo_nil], rfl, rfl, rfl, rfl, rfl⟩
  | cons p rest ih =>
    intro st k inv h
    obtain ⟨invm, h1, h2, h3, h4, h5, h6, h7⟩ := processPayment_spec st p k inv h
    obtain ⟨inv', g1, g2, g3, g4, g5, g6, g7⟩ := ih (processPayment st p).1 k invm h1
    refine ⟨inv', ?_, ?_, by rw [g3, h3], by rw [g4, h4], by rw [g5, h5],
      by rw [g6, h6], by rw [g7, h7]⟩
    · rw [reconcile]
      exact g1
    · rw [reconcile]
      simp only
      rw [sumAppliedTo_append, g2, h2]
      ring

theorem reconcile_bounds :
    ∀ (pays : List Payment) (st : List Invoice),
      (∀ (k : ℕ) (inv : Invoice), st[k]? = some inv →
        0 ≤ inv.remaining ∧ inv.remaining ≤ inv.total) →
      ((∀ (k : ℕ) (inv : Invoice), (reconcile st pays).1[k]? = some inv →
          0 ≤ inv.remaining ∧ inv.remaining ≤ inv.total) ∧
        (∀ (k : ℕ) (inv inv' : Invoice), st[k]? = some inv →
          (reconcile st pays).1[k]? = some inv' →
          inv'.remaining ≤ inv.remaining ∧ inv'.total = inv.total)) := by
  intro pays
  induction pays with
  | nil =>
    intro st hb
    refine ⟨fun k inv hk => hb k inv hk, fun k inv inv' hk hk' => ?_⟩
    rw [reconcile] at hk'
    rw [hk] at hk'
    cases Option.some.inj hk'
    exact ⟨le_refl _, rfl⟩
  | cons p rest ih =>
    intro st hb
    have hpp := processPayment_bounds st p hb
    have IH := ih (processPayment st p).1 hpp.1
    constructor
    · intro k inv hk
      rw [reconcile] at hk
      exact IH.1 k inv hk
    · intro k inv inv' hk hk'
      rw [reconcile] at hk'
      simp only at hk'
      obtain ⟨invm, hm, _, _, _, _, _, _⟩ := processPayment_spec st p k inv hk
      obtain ⟨le1, teq1⟩ := hpp.2 k inv invm hk hm
      obtain ⟨le2, teq2⟩ := IH.2 k invm inv' hm hk'
      exact ⟨le_trans le2 le1, by rw [teq2, teq1]⟩

theorem reconcile_append :
    ∀ (t u : List Payment) (st : List Invoice),
      (reconcile st (t ++ u)).1 = (reconcile (reconcile st t).1 u).1 := by
  intro t
  induction t with
  | nil => intro u st; simp [reconcile]
  | cons p rest ih =>
    intro u st
    rw [List.cons_append, reconcile, reconcile]
    simp only
    exact ih u (processPayment st p).1

/-! Further helper lemmas -/

theorem mem_of_getElem?_some {l : List α} {i : ℕ} {a : α} (h : l[i]? = some a) : a ∈ l := by
  rcases List.getElem?_eq_some.mp h with ⟨hl, rfl⟩
  exact List.getElem_mem hl

theorem mem_withIdx_of_getElem (l : List α) :
    ∀ (n k : ℕ) (x : α), l[k]? = some x → (n + k, x) ∈ withIdx n l := by
  induction l with
  | nil => intro n k x h; simp at h
  | cons a t ih =>
    intro n k x h
    cases k with
    | zero =>
      simp only [List.getElem?_cons_zero, Option.some.injEq] at h
      subst h
      simp [withIdx]
    | succ k =>
      simp only [List.getElem?_cons_succ] at h
      have := ih (n + 1) k x h
      rw [withIdx, List.mem_cons]
      right
      have harith : n + (k + 1) = (n + 1) + k := by omega
      rw [harith]
      exact this

theorem applyCands_nonpos (p : Payment) (cands : List (ℕ × Invoice)) (st : List Invoice)
    (cpa : ℚ) (proc : Bool) (h : cpa ≤ 0) :
    applyCands p cands st cpa proc = ⟨st, cpa, proc, []⟩ := by
  cases cands with
  | nil => rfl
  | cons hd rest =>
    obtain ⟨i, cinv⟩ := hd
    rw [applyCands, if_pos h]

theorem matchedOf_applyCands (p : Payment) (cands : List (ℕ × Invoice)) (st : List Invoice)
    (cpa : ℚ) (proc : Bool) :
    matchedOf (applyCands p cands st cpa proc).events = (applyCands p cands st cpa proc).events :=
  List.filter_eq_self.mpr (fun e he =>
    decide_eq_true (applyCands_events_shape p cands st cpa proc e he).1)

theorem trailingOf_applyCands (p : Payment) (cands : List (ℕ × Invoice)) (st : List Invoice)
    (cpa : ℚ) (proc : Bool) :
    trailingOf (applyCands p cands st cpa proc).events = [] :=
  List.filter_eq_nil_iff.mpr (fun e he => by
    simp [(applyCands_events_shape p cands st cpa proc e he).1])

theorem processPayment_cases (st : List Invoice) (p : Payment) :
    ((applyCands p (matchingInvoices st p) st p.amount false).events = [] ∧
      0 < (applyCands p (matchingInvoices st p) st p.amount false).remainingPayment ∧
      (processPayment st p).2 = [noMatchEvent p]) ∨
    ((applyCands p (matchingInvoices st p) st p.amount false).events ≠ [] ∧
      0 < (applyCands p (matchingInvoices st p) st p.amount false).remainingPayment ∧
      (processPayment st p).2 =
        (applyCands p (matchingInvoices st p) st p.amount false).events ++
          [leftoverEvent p
            (applyCands p (matchingInvoices st p) st p.amount false).remainingPayment]) ∨
    ((applyCands p (matchingInvoices st p) st p.amount false).remainingPayment ≤ 0 ∧
      (processPayment st p).2 = (applyCands p (matchingInvoices st p) st p.amount false).events) := by
  have hproc := applyCands_processed p (matchingInvoices st p) st p.amount false
  rw [Bool.false_or] at hproc
  rw [processPayment]
  split_ifs with h1 h2
  · left
    have hempty : (applyCands p (matchingInvoices st p) st p.amount false).events.isEmpty = true := by
      have := h1.2
      rw [hproc] at this
      simpa using this
    have := List.isEmpty_iff.mp hempty
    exact ⟨this, h1.1, by rw [this]; rfl⟩
  · right; left
    have hne : (applyCands p (matchingInvoices st p) st p.amount false).events ≠ [] := by
      intro hnil
      have := h2.2
      rw [hproc, hnil] at this
      simp at this
    exact ⟨hne, h2.1, rfl⟩
  · right; right
    have hle : (applyCands p (matchingInvoices st p) st p.amount false).remainingPayment ≤ 0 := by
      by_contra hpos
      rcases Bool.eq_false_or_eq_true
        (applyCands p (matchingInvoices st p) st p.amount false).processed with hb | hb
      · exact h2 ⟨not_le.mp hpos, hb⟩
      · exact h1 ⟨not_le.mp hpos, hb⟩
    exact ⟨hle, rfl⟩

theorem findCompany_eq_some :
    ∀ (m : List (String × List String)) (v c : String), findCompany m v = some c →
      ∃ pre vs post, m = pre ++ (c, vs) :: post ∧ v ∈ vs ∧ ∀ x ∈ pre, v ∉ x.2 := by
  intro m
  induction m with
  | nil => intro v c h; simp [findCompany] at h
  | cons hd rest ih =>
    obtain ⟨n, vs⟩ := hd
    intro v c h
    rw [findCompany] at h
    by_cases hv : v ∈ vs
    · rw [if_pos hv] at h
      cases Option.some.inj h
      exact ⟨[], vs, rest, by simp, hv, by simp⟩
    · rw [if_neg hv] at h
      obtain ⟨pre, vs', post, heq, hmem, hpre⟩ := ih v c h
      refine ⟨(n, vs) :: pre, vs', post, by rw [heq]; rfl, hmem, ?_⟩
      intro x hx
      rcases List.mem_cons.mp hx with heq' | hx'
      · rw [heq']
        exact hv
      · exact hpre x hx'

theorem findCompany_eq_none :
    ∀ (m : List (String × List String)) (v : String), (∀ x ∈ m, v ∉ x.2) →
      findCompany m v = none := by
  intro m
  induction m with
  | nil => intro v _; rfl
  | cons hd rest ih =>
    obtain ⟨n, vs⟩ := hd
    intro v h
    rw [findCompany, if_neg (h (n, vs) (List.mem_cons_self _ _))]
    exact ih v (fun x hx => h x (List.mem_cons_of_mem _ hx))

theorem foldl_add_signed (l : List LedgerEvent) :
    ∀ b : ℚ, l.foldl (fun acc e => acc + signedAmount e) b = b + (l.map signedAmount).sum := by
  induction l with
  | nil => intro b; simp
  | cons e t ih =>
    intro b
    rw [List.foldl_cons, ih]
    simp [add_assoc]

theorem withBalancesFrom_spec :
    ∀ (evs : List LedgerEvent) (bal : ℚ) (k : ℕ) (x : LedgerEvent × ℚ),
      (withBalancesFrom bal evs)[k]? = some x →
      ∃ e, evs[k]? = some e ∧ x.1 = e ∧
        x.2 = bal + ((evs.take (k + 1)).map signedAmount).sum := by
  intro evs
  induction evs with
  | nil => intro bal k x h; simp [withBalancesFrom] at h
  | cons e t ih =>
    intro bal k x h
    cases k with
    | zero =>
      rw [withBalancesFrom] at h
      simp only [List.getElem?_cons_zero, Option.some.injEq] at h
      subst h
      simp
    | succ k =>
      rw [withBalancesFrom] at h
      simp only [List.getElem?_cons_succ] at h
      obtain ⟨e', h1, h2, h3⟩ := ih (bal + signedAmount e) k x h
      refine ⟨e', by simpa using h1, h2, ?_⟩
      rw [h3, List.take_succ_cons, List.map_cons, List.sum_cons]
      ring

theorem sum_map_neg_amount (l : List Payment) :
    (l.map (fun q => -q.amount)).sum = -((l.map Payment.amount).sum) := by
  induction l with
  | nil => simp
  | cons a t ih =>
    simp only [List.map_cons, List.sum_cons, ih]
    ring

theorem matchedOf_append (l₁ l₂ : List AllocationEvent) :
    matchedOf (l₁ ++ l₂) = matchedOf l₁ ++ matchedOf l₂ := by
  simp [matchedOf, List.filter_append]

theorem trailingOf_append (l₁ l₂ : List AllocationEvent) :
    trailingOf (l₁ ++ l₂) = trailingOf l₁ ++ trailingOf l₂ := by
  simp [trailingOf, List.filter_append]

theorem matchedOf_noMatch (p : Payment) : matchedOf [noMatchEvent p] = [] := by
  simp [matchedOf, noMatchEvent]

theorem trailingOf_noMatch (p : Payment) : trailingOf [noMatchEvent p] = [noMatchEvent p] := by
  simp [trailingOf, noMatchEvent]

theorem matchedOf_leftover (p : Payment) (c : ℚ) : matchedOf [leftoverEvent p c] = [] := by
  simp [matchedOf, leftoverEvent]

theorem trailingOf_leftover (p : Payment) (c : ℚ) :
    trailingOf [leftoverEvent p c] = [leftoverEvent p c] := by
  simp [trailingOf, leftoverEvent]

theorem leftoverOf_of_trailing_noMatch (p q : Payment) (evs : List AllocationEvent)
    (h : trailingOf evs = [noMatchEvent q]) : leftoverOf p evs = p.amount := by
  simp [leftoverOf, h, noMatchEvent]

theorem leftoverOf_of_trailing_leftover (p q : Payment) (c : ℚ) (evs : List AllocationEvent)
    (h : trailingOf evs = [leftoverEvent q c]) : leftoverOf p evs = c := by
  simp [leftoverOf, h, leftoverEvent]

theorem leftoverOf_of_trailing_nil (p : Payment) (evs : List AllocationEvent)
    (h : trailingOf evs = []) : leftoverOf p evs = 0 := by
  simp [leftoverOf, h]

/-! The claims -/

/-- C10: a payment that reaches the engine with a non-positive amount
leaves no trace: the candidate loop breaks immediately, neither the
no-match branch nor the leftover branch fires, so no row of any kind is
appended for it and the working frame is unchanged. -/
theorem nonpositive_payment_leaves_no_trace (st : List Invoice) (p : Payment)
    (h : p.amount ≤ 0) :
    (processPayment st p).2 = [] ∧ (processPayment st p).1 = st := by
  have hnl : ¬ 0 < p.amount := not_lt.mpr h
  rw [processPayment, applyCands_nonpos p (matchingInvoices st p) st p.amount false h]
  simp [hnl]

/-- Witness for C10 at a concrete zero-amount payment. -/
theorem nonpositive_payment_leaves_no_trace_witness :
    (processPayment [invA] payZero).2 = [] ∧ (processPayment [invA] payZero).1 = [invA] :=
  nonpositive_payment_leaves_no_trace [invA] payZero (by decide)

/-- C2: after the candidate loop, exactly one trailing (non-matched)
row is emitted iff the remaining payment is positive; when no invoice
was matched the row is the no-match row with zero applied amount and no
invoice reference, and when at least one invoice was matched the row is
the leftover row whose applied amount is the total actually applied
(payment amount minus remaining payment) with the leftover in its note
and no invoice reference. -/
theorem single_trailing_event (st : List Invoice) (p : Payment) :
    (processPayment st p).2 =
        matchedOf (processPayment st p).2 ++ trailingOf (processPayment st p).2 ∧
    (0 < p.amount - ((matchedOf (processPayment st p).2).map AllocationEvent.applied).sum →
      ∃ e, trailingOf (processPayment st p).2 = [e] ∧ e.invoiceIdx = none ∧
        e.payAmount = p.amount ∧
        (matchedOf (processPayment st p).2 = [] →
          e.outcome = Outcome.noMatchFound ∧ e.applied = 0) ∧
        (matchedOf (processPayment st p).2 ≠ [] →
          e.outcome = Outcome.partialLeftover ∧
          e.applied = ((matchedOf (processPayment st p).2).map AllocationEvent.applied).sum ∧
          e.note = some (p.amount -
            ((matchedOf (processPayment st p).2).map AllocationEvent.applied).sum))) ∧
    (p.amount - ((matchedOf (processPayment st p).2).map AllocationEvent.applied).sum ≤ 0 →
      trailingOf (processPayment st p).2 = []) := by
  have hcpa := applyCands_cpa p (matchingInvoices st p) st p.amount false
  rcases processPayment_cases st p with ⟨hemp, hpos, hev⟩ | ⟨hne, hpos, hev⟩ | ⟨hle, hev⟩
  · rw [hev, matchedOf_noMatch, trailingOf_noMatch]
    refine ⟨by simp, fun _ => ⟨noMatchEvent p, rfl, rfl, rfl, fun _ => ⟨rfl, rfl⟩,
      fun hc => absurd rfl hc⟩, fun hc => ?_⟩
    exfalso
    rw [hemp] at hcpa
    simp at hcpa
    simp at hc
    rw [hcpa] at hpos
    linarith
  · rw [hev, matchedOf_append, matchedOf_leftover, List.append_nil, matchedOf_applyCands,
      trailingOf_append, trailingOf_applyCands, trailingOf_leftover, List.nil_append]
    refine ⟨rfl, fun _ => ?_, fun hc => ?_⟩
    · refine ⟨leftoverEvent p
        (applyCands p (matchingInvoices st p) st p.amount false).remainingPayment,
        rfl, rfl, rfl, fun hc => absurd hc hne, fun _ => ⟨rfl, ?_, ?_⟩⟩
      · show p.amount -
          (applyCands p (matchingInvoices st p) st p.amount false).remainingPayment = _
        rw [hcpa]
        ring
      · rw [hcpa]
        rfl
    · exfalso
      rw [hcpa] at hpos
      linarith
  · rw [hev, matchedOf_applyCands, trailingOf_applyCands]
    refine ⟨by simp, fun hc => ?_, fun _ => rfl⟩
    exfalso
    rw [← hcpa] at hc
    linarith

/-- Witness for C2: a concrete overpayment produces one matched row
followed by one leftover row. -/
theorem single_trailing_event_witness :
    (processPayment [invA] payBig).2 =
        matchedOf (processPayment [invA] payBig).2 ++
          trailingOf (processPayment [invA] payBig).2 ∧
    (0 < payBig.amount -
        ((matchedOf (processPayment [invA] payBig).2).map AllocationEvent.applied).sum →
      ∃ e, trailingOf (processPayment [invA] payBig).2 = [e] ∧ e.invoiceIdx = none ∧
        e.payAmount = payBig.amount ∧
        (matchedOf (processPayment [invA] payBig).2 = [] →
          e.outcome = Outcome.noMatchFound ∧ e.applied = 0) ∧
        (matchedOf (processPayment [invA] payBig).2 ≠ [] →
          e.outcome = Outcome.partialLeftover ∧
          e.applied =
            ((matchedOf (processPayment [invA] payBig).2).map AllocationEvent.applied).sum ∧
          e.note = some (payBig.amount -
            ((matchedOf (processPayment [invA] payBig).2).map AllocationEvent.applied).sum))) ∧
    (payBig.amount -
        ((matchedOf (processPayment [invA] payBig).2).map AllocationEvent.applied).sum ≤ 0 →
      trailingOf (processPayment [invA] payBig).2 = []) :=
  single_trailing_event [invA] payBig

/-- C4: a positive payment's amount is exactly the total applied across
its matched rows plus the leftover its trailing row reports (the note
of its leftover row, the full amount when its only row is a no-match
row, and zero when it was fully applied). -/
theorem payment_conservation (st : List Invoice) (p : Payment) (h : 0 < p.amount) :
    p.amount = ((matchedOf (processPayment st p).2).map AllocationEvent.applied).sum +
      leftoverOf p (processPayment st p).2 := by
  have hcpa := applyCands_cpa p (matchingInvoices st p) st p.amount false
  rcases processPayment_cases st p with ⟨hemp, hpos, hev⟩ | ⟨hne, hpos, hev⟩ | ⟨hle, hev⟩
  · rw [hev, matchedOf_noMatch,
      leftoverOf_of_trailing_noMatch p p [noMatchEvent p] (trailingOf_noMatch p)]
    simp
  · rw [hev, matchedOf_append, matchedOf_leftover, List.append_nil, matchedOf_applyCands,
      leftoverOf_of_trailing_leftover p p
        (applyCands p (matchingInvoices st p) st p.amount false).remainingPayment _
        (by rw [trailingOf_append, trailingOf_applyCands, trailingOf_leftover,
          List.nil_append])]
    rw [hcpa]
    ring
  · rw [hev, matchedOf_applyCands,
      leftoverOf_of_trailing_nil p _ (trailingOf_applyCands p _ st p.amount false)]
    have hnn := applyCands_cpa_nonneg p (matchingInvoices st p) st p.amount false (le_of_lt h)
    rw [hcpa] at hle hnn
    linarith

/-- Witness for C4 at a concrete overpayment. -/
theorem payment_conservation_witness :
    payBig.amount =
      ((matchedOf (processPayment [invA] payBig).2).map AllocationEvent.applied).sum +
        leftoverOf payBig (processPayment [invA] payBig).2 :=
  payment_conservation [invA] payBig (by decide)

/-- C3: after the full run, for every invoice of the input frame (whose
remaining amount starts at its total, as the loader guarantees), the
difference between its total and its final remaining amount equals the
sum of the applied amounts of all matched rows referencing it. -/
theorem invoice_conservation (invs : List Invoice) (pays : List Payment)
    (hinit : ∀ inv ∈ invs, inv.remaining = inv.total)
    (k : ℕ) (inv : Invoice) (h : invs[k]? = some inv) :
    ∃ inv', (reconcile invs pays).1[k]? = some inv' ∧ inv'.total = inv.total ∧
      inv'.total - inv'.remaining = sumAppliedTo k (reconcile invs pays).2 := by
  obtain ⟨inv', h1, h2, _, _, _, _, h7⟩ := reconcile_spec pays invs k inv h
  refine ⟨inv', h1, h7, ?_⟩
  rw [h7, h2, hinit inv (mem_of_getElem?_some h)]
  ring

/-- Witness for C3: the sample run pays 700 of invoice `invA`. -/
theorem invoice_conservation_witness :
    ∃ inv', (reconcile [invB, invA] [payMain]).1[1]? = some inv' ∧ inv'.total = invA.total ∧
      inv'.total - inv'.remaining = sumAppliedTo 1 (reconcile [invB, invA] [payMain]).2 :=
  invoice_conservation [invB, invA] [payMain] (by decide) 1 invA rfl


/-- C5: with non-negative totals, remaining amounts initialised to the
totals and positive payment amounts, every invoice of the working frame
satisfies `0 ≤ remaining ≤ total` after any prefix of the payments and
even part-way through the candidate loop of the next payment, and the
remaining amount never increases as more payments are processed. -/
theorem remaining_bounds (invs : List Invoice) (pays : List Payment)
    (htot : ∀ inv ∈ invs, 0 ≤ inv.total ∧ inv.remaining = inv.total)
    (hpos : ∀ p ∈ pays, 0 < p.amount) :
    (∀ t u : List Payment, pays = t ++ u →
      ∀ (k : ℕ) (inv : Invoice), (reconcile invs t).1[k]? = some inv →
        0 ≤ inv.remaining ∧ inv.remaining ≤ inv.total) ∧
    (∀ (t : List Payment) (p : Payment) (v : List Payment), pays = t ++ p :: v →
      ∀ cs ds : List (ℕ × Invoice), matchingInvoices (reconcile invs t).1 p = cs ++ ds →
        ∀ (k : ℕ) (inv : Invoice),
          (applyCands p cs (reconcile invs t).1 p.amount false).state[k]? = some inv →
          0 ≤ inv.remaining ∧ inv.remaining ≤ inv.total) ∧
    (∀ t u v : List Payment, pays = t ++ u ++ v →
      ∀ (k : ℕ) (inv inv' : Invoice), (reconcile invs t).1[k]? = some inv →
        (reconcile invs (t ++ u)).1[k]? = some inv' →
        inv'.remaining ≤ inv.remaining) := by
  have hb0 : ∀ (k : ℕ) (inv : Invoice), invs[k]? = some inv →
      0 ≤ inv.remaining ∧ inv.remaining ≤ inv.total := by
    intro k inv hk
    obtain ⟨h1, h2⟩ := htot inv (mem_of_getElem?_some hk)
    rw [h2]
    exact ⟨h1, le_refl _⟩
  refine ⟨?_, ?_, ?_⟩
  · intro t u hpays k inv hk
    exact (reconcile_bounds t invs hb0).1 k inv hk
  · intro t p v hpays cs ds hcs k inv hk
    have hbt := (reconcile_bounds t invs hb0).1
    have hcons : ∀ x ∈ cs, (reconcile invs t).1[x.1]? = some x.2 := by
      intro x hx
      have hx' : x ∈ matchingInvoices (reconcile invs t).1 p := by
        rw [hcs]
        exact List.mem_append_left ds hx
      exact (mem_matchingInvoices hx').1
    have hkeys : cs.Pairwise (fun a b => a.1 ≠ b.1) := by
      have hall := matchingInvoices_keys (reconcile invs t).1 p
      rw [hcs] at hall
      exact hall.sublist (List.sublist_append_left cs ds)
    exact (applyCands_bounds p cs (reconcile invs t).1 p.amount false hcons hkeys hbt).1
      k inv hk
  · intro t u v hpays k inv inv' hk hk'
    rw [reconcile_append t u invs] at hk'
    exact ((reconcile_bounds u (reconcile invs t).1 (reconcile_bounds t invs hb0).1).2
      k inv inv' hk hk').1

/-- Witness for C5 on the sample frame and the single 700 payment. -/
theorem remaining_bounds_witness :
    (∀ t u : List Payment, [payMain] = t ++ u →
      ∀ (k : ℕ) (inv : Invoice), (reconcile [invB, invA] t).1[k]? = some inv →
        0 ≤ inv.remaining ∧ inv.remaining ≤ inv.total) ∧
    (∀ (t : List Payment) (p : Payment) (v : List Payment), [payMain] = t ++ p :: v →
      ∀ cs ds : List (ℕ × Invoice),
        matchingInvoices (reconcile [invB, invA] t).1 p = cs ++ ds →
        ∀ (k : ℕ) (inv : Invoice),
          (applyCands p cs (reconcile [invB, invA] t).1 p.amount false).state[k]? = some inv →
          0 ≤ inv.remaining ∧ inv.remaining ≤ inv.total) ∧
    (∀ t u v : List Payment, [payMain] = t ++ u ++ v →
      ∀ (k : ℕ) (inv inv' : Invoice), (reconcile [invB, invA] t).1[k]? = some inv →
        (reconcile [invB, invA] (t ++ u)).1[k]? = some inv' →
        inv'.remaining ≤ inv.remaining) :=
  remaining_bounds [invB, invA] [payMain] (by decide) (by decide)

theorem findTenDigits_of_no_digit :
    ∀ cs : List Char, (∀ c ∈ cs, c.isDigit = false) → findTenDigits cs = none := by
  intro cs
  induction cs with
  | nil => intro _; rfl
  | cons c t ih =>
    intro h
    have htake : (c :: t).take 10 = c :: t.take 9 := rfl
    have h1 : ((c :: t).take 10).all Char.isDigit = false := by
      rw [htake, List.all_cons, h c (List.mem_cons_self _ _), Bool.false_and]
    have hc : tenDigitsAt (c :: t) = false := by
      rw [tenDigitsAt, h1, Bool.and_false]
    rw [findTenDigits, if_neg (by rw [hc]; simp)]
    exact ih (fun x hx => h x (List.mem_cons_of_mem _ hx))

/-- C6: matching is plain string equality on the normalised VOEN, the
empty string included: an invoice with an empty VOEN and open balance
is a candidate for a payment with an empty VOEN, a payment whose
(possibly non-empty) VOEN equals no invoice's VOEN has no candidates at
all, and a raw string without a digit normalises to the empty VOEN. -/
theorem empty_voen_matching (st : List Invoice) (p : Payment) :
    (p.voen = "" →
      ∀ (i : ℕ) (inv : Invoice), st[i]? = some inv → inv.voen = "" → 0 < inv.remaining →
        (i, inv) ∈ matchingInvoices st p) ∧
    (p.voen ≠ "" → (∀ inv ∈ st, inv.voen ≠ p.voen) → matchingInvoices st p = []) ∧
    (∀ s : String, (∀ c ∈ s.data, c.isDigit = false) → cleanVoen s = "") := by
  refine ⟨?_, ?_, ?_⟩
  · intro hp i inv h hv hr
    rw [(matchingInvoices_perm st p).mem_iff]
    apply List.mem_filter.mpr
    constructor
    · have := mem_withIdx_of_getElem st 0 i inv h
      simpa using this
    · exact decide_eq_true ⟨by rw [hv, hp], hr⟩
  · intro hp hnone
    rw [matchingInvoices]
    have hf : (withIdx 0 st).filter
        (fun x => decide (x.2.voen = p.voen ∧ 0 < x.2.remaining)) = [] := by
      apply List.filter_eq_nil_iff.mpr
      intro x hx
      have hx2 : x.2 ∈ st := by
        have h2 := (mem_withIdx st 0 x.1 x.2 (by simpa using hx)).2
        simp only [Nat.sub_zero] at h2
        exact mem_of_getElem?_some h2
      rw [decide_eq_true_eq]
      intro hand
      exact hnone x.2 hx2 hand.1
    rw [hf]
    rfl
  · intro s hs
    simp [cleanVoen, findTenDigits_of_no_digit s.data hs]

/-- Witness for C6: an empty-VOEN payment matches the empty-VOEN
invoice, a stray VOEN matches nothing, and a digit-free raw cell
normalises to the empty string. -/
theorem empty_voen_matching_witness :
    (0, invE) ∈ matchingInvoices [invE] payEmpty ∧
    matchingInvoices [invE] payNine = [] ∧ cleanVoen "no digits" = "" :=
  ⟨(empty_voen_matching [invE] payEmpty).1 rfl 0 invE rfl rfl (by decide),
   (empty_voen_matching [invE] payNine).2.1 (by decide) (by decide),
   (empty_voen_matching [invE] payEmpty).2.2 "no digits" (by decide)⟩

/-- C7: a payment is attributed to at most one company: the first
company in map-iteration order whose VOEN set contains the payment's
VOEN, characterised by the earlier companies not containing it; a
payment whose VOEN is in no company's set is attributed to none and
appears in no company's payment rows; an attributed payment's ledger
row carries the negated amount. -/
theorem payment_attribution (invs : List Invoice) (pays : List Payment) (p : Payment) :
    (∀ c : String, findCompany (companyVoenMap invs) p.voen = some c →
      ∃ pre vs post, companyVoenMap invs = pre ++ (c, vs) :: post ∧ p.voen ∈ vs ∧
        ∀ x ∈ pre, p.voen ∉ x.2) ∧
    ((∀ x ∈ companyVoenMap invs, p.voen ∉ x.2) →
      findCompany (companyVoenMap invs) p.voen = none) ∧
    (∀ c' : String, p ∈ pays.filter
        (fun q => decide (findCompany (companyVoenMap invs) q.voen = some c')) ↔
      p ∈ pays ∧ findCompany (companyVoenMap invs) p.voen = some c') ∧
    signedAmount (paymentEntry p) = -p.amount := by
  refine ⟨?_, ?_, ?_, ?_⟩
  · intro c hc
    exact findCompany_eq_some (companyVoenMap invs) p.voen c hc
  · intro hnone
    exact findCompany_eq_none (companyVoenMap invs) p.voen hnone
  · intro c'
    simp [List.mem_filter]
  · simp [signedAmount, paymentEntry]

/-- Witness for C7 on a two-company frame: `payMain` is attributed to
the first company holding its VOEN, `payNine` to none. -/
theorem payment_attribution_witness :
    (∃ pre vs post, companyVoenMap [invA, invE] = pre ++ ("Alpha", vs) :: post ∧
      payMain.voen ∈ vs ∧ ∀ x ∈ pre, payMain.voen ∉ x.2) ∧
    findCompany (companyVoenMap [invA, invE]) payNine.voen = none ∧
    payMain ∈ [payMain].filter
      (fun q => decide (findCompany (companyVoenMap [invA, invE]) q.voen = some "Alpha")) ∧
    signedAmount (paymentEntry payMain) = -payMain.amount :=
  ⟨(payment_attribution [invA, invE] [payMain] payMain).1 "Alpha" (by decide),
   (payment_attribution [invA, invE] [payMain] payNine).2.1 (by decide),
   ((payment_attribution [invA, invE] [payMain] payMain).2.2.1 "Alpha").mpr
     ⟨List.mem_cons_self _ _, by decide⟩,
   (payment_attribution [invA, invE] [payMain] payMain).2.2.2⟩

/-- C8: in a company's date-sorted ledger, the balance written beside
the row at position `k` is the prefix sum of the signed amounts of the
rows up to and including `k`, and the final `Итог` balance equals the
company's total invoiced amount minus the total of the payments
attributed to it. -/
theorem running_balance_prefix_sum (invs : List Invoice) (pays : List Payment) (c : String) :
    (∀ (k : ℕ) (x : LedgerEvent × ℚ),
      (withBalances (sortedLedger invs pays c))[k]? = some x →
      ∃ e, (sortedLedger invs pays c)[k]? = some e ∧ x.1 = e ∧
        x.2 = (((sortedLedger invs pays c).take (k + 1)).map signedAmount).sum) ∧
    finalBalance (sortedLedger invs pays c) =
      ((invs.filter (fun i => decide (i.company = c))).map Invoice.total).sum -
        ((pays.filter
          (fun q => decide (findCompany (companyVoenMap invs) q.voen = some c))).map
          Payment.amount).sum := by
  constructor
  · intro k x h
    obtain ⟨e, h1, h2, h3⟩ := withBalancesFrom_spec (sortedLedger invs pays c) 0 k x h
    exact ⟨e, h1, h2, by rw [h3, zero_add]⟩
  · rw [finalBalance, foldl_add_signed, zero_add]
    have hperm : ((sortedLedger invs pays c).map signedAmount).Perm
        ((companyEventList invs pays c).map signedAmount) :=
      (stableSort_perm ledgerDateLe (companyEventList invs pays c)).map signedAmount
    rw [hperm.sum_eq, companyEventList, List.map_append, List.sum_append,
      List.map_map, List.map_map]
    have h1 : (invs.filter (fun i => decide (i.company = c))).map
        (signedAmount ∘ invoiceEntry) =
        (invs.filter (fun i => decide (i.company = c))).map Invoice.total :=
      List.map_congr_left (fun a _ => rfl)
    have h2 : (pays.filter
        (fun q => decide (findCompany (companyVoenMap invs) q.voen = some c))).map
        (signedAmount ∘ paymentEntry) =
        (pays.filter
          (fun q => decide (findCompany (companyVoenMap invs) q.voen = some c))).map
          (fun q => -q.amount) :=
      List.map_congr_left (fun a _ => rfl)
    rw [h1, h2, sum_map_neg_amount]
    ring

/-- Witness for C8 at the sample company. -/
theorem running_balance_prefix_sum_witness :
    (∀ (k : ℕ) (x : LedgerEvent × ℚ),
      (withBalances (sortedLedger [invA, invE] [payMain] "Alpha"))[k]? = some x →
      ∃ e, (sortedLedger [invA, invE] [payMain] "Alpha")[k]? = some e ∧ x.1 = e ∧
        x.2 = (((sortedLedger [invA, invE] [payMain] "Alpha").take (k + 1)).map
          signedAmount).sum) ∧
    finalBalance (sortedLedger [invA, invE] [payMain] "Alpha") =
      (([invA, invE].filter (fun i => decide (i.company = "Alpha"))).map Invoice.total).sum -
        (([payMain].filter
          (fun q => decide (findCompany (companyVoenMap [invA, invE]) q.voen =
            some "Alpha"))).map Payment.amount).sum :=
  running_balance_prefix_sum [invA, invE] [payMain] "Alpha"

/-- C9: the company aggregator depends only on the immutable invoice
fields: replacing every invoice's remaining amount and status (the only
fields the allocation engine's working copy mutates) leaves every
company ledger unchanged, and each invoice row carries the original
total amount of an invoice of that company. -/
theorem aggregator_frame (invs : List Invoice) (pays : List Payment)
    (upd : Invoice → Invoice)
    (h : ∀ inv : Invoice, (upd inv).num = inv.num ∧ (upd inv).voen = inv.voen ∧
      (upd inv).company = inv.company ∧ (upd inv).date = inv.date ∧
      (upd inv).total = inv.total) :
    (∀ c : String, sortedLedger (invs.map upd) pays c = sortedLedger invs pays c) ∧
    (∀ c : String, ∀ e ∈ companyEventList invs pays c, e.kind = LedgerKind.invoiceKind →
      ∃ inv ∈ invs, inv.company = c ∧ e.amount = inv.total) := by
  have hmap : companyVoenMap (invs.map upd) = companyVoenMap invs := by
    rw [companyVoenMap, companyVoenMap]
    have hnames : (invs.map upd).map Invoice.company = invs.map Invoice.company := by
      rw [List.map_map]
      exact List.map_congr_left (fun a _ => (h a).2.2.1)
    rw [hnames]
    apply List.map_congr_left
    intro n _
    have hv : ((invs.map upd).filter (fun i => decide (i.company = n))).map Invoice.voen
        = (invs.filter (fun i => decide (i.company = n))).map Invoice.voen := by
      rw [List.filter_map, List.map_map]
      have hfil : invs.filter ((fun i => decide (i.company = n)) ∘ upd)
          = invs.filter (fun i => decide (i.company = n)) :=
        List.filter_congr (fun a _ => by simp [Function.comp, (h a).2.2.1])
      rw [hfil]
      exact List.map_congr_left (fun a _ => (h a).2.1)
    rw [hv]
  have hlist : ∀ c : String,
      companyEventList (invs.map upd) pays c = companyEventList invs pays c := by
    intro c
    rw [companyEventList, companyEventList, hmap]
    congr 1
    rw [List.filter_map, List.map_map]
    have hfil : invs.filter ((fun i => decide (i.company = c)) ∘ upd)
        = invs.filter (fun i => decide (i.company = c)) :=
      List.filter_congr (fun a _ => by simp [Function.comp, (h a).2.2.1])
    rw [hfil]
    apply List.map_congr_left
    intro a _
    simp [invoiceEntry, (h a).1, (h a).2.2.2.1, (h a).2.2.2.2]
  refine ⟨fun c => by rw [sortedLedger, sortedLedger, hlist c], ?_⟩
  intro c e he hkind
  rcases List.mem_append.mp he with hinv | hpay
  · rcases List.mem_map.mp hinv with ⟨a, ha, rfl⟩
    rcases List.mem_filter.mp ha with ⟨hmem, hpred⟩
    exact ⟨a, hmem, of_decide_eq_true hpred, rfl⟩
  · rcases List.mem_map.mp hpay with ⟨q, hq, rfl⟩
    exact absurd hkind (by simp [paymentEntry])

/-- Witness for C9: zeroing the remaining amounts of the sample frame
does not change the sample company report. -/
theorem aggregator_frame_witness :
    (∀ c : String, sortedLedger ([invA, invE].map updZero) [payMain] c =
      sortedLedger [invA, invE] [payMain] c) ∧
    (∀ c : String, ∀ e ∈ companyEventList [invA, invE] [payMain] c,
      e.kind = LedgerKind.invoiceKind →
      ∃ inv ∈ [invA, invE], inv.company = c ∧ e.amount = inv.total) :=
  aggregator_frame [invA, invE] [payMain] updZero (fun inv => ⟨rfl, rfl, rfl, rfl, rfl⟩)

theorem perm_pair {l : List α} {a b : α} (h : l.Perm [a, b]) :
    l = [a, b] ∨ l = [b, a] := by
  have hlen := h.length_eq
  rcases l with _ | ⟨x, _ | ⟨y, _ | ⟨z, l4⟩⟩⟩
  · simp at hlen
  · simp at hlen
  · have hx : x ∈ [a, b] := h.subset (List.mem_cons_self _ _)
    rcases List.mem_cons.mp hx with hxa | hx'
    · left
      rw [hxa]
      have h2 : [y] = [b] := List.perm_singleton.mp ((List.perm_cons a).mp (hxa ▸ h))
      injection h2 with hy _
      rw [hy]
    · have hxb : x = b := by simpa using hx'
      right
      rw [hxb]
      have h3 : ([b, y] : List α).Perm [a, b] := hxb ▸ h
      have h4 : ([b, y] : List α).Perm [b, a] := h3.trans (List.Perm.swap b a [])
      have h2 : [y] = [a] := List.perm_singleton.mp ((List.perm_cons b).mp h4)
      injection h2 with hy _
      rw [hy]
  · simp only [List.length_cons, List.length_nil] at hlen
    omega

theorem dateSorted_matchingInvoices (st : List Invoice) (p : Payment) :
    DateSorted st p (matchingInvoices st p) := by
  refine ⟨matchingInvoices_perm st p, ?_⟩
  rw [matchingInvoices]
  refine sorted_stableSort dateLe ?_ ?_ _
  · intro x y
    rcases le_total x.2.date y.2.date with h | h
    · exact Or.inl ((dateLe_true_iff x y).mpr h)
    · exact Or.inr ((dateLe_true_iff y x).mpr h)
  · intro x y z hxy hyz
    rw [dateLe_true_iff] at hxy hyz ⊢
    exact le_trans hxy hyz

/-- Counterexample refuting C1 as frozen: the code's candidate sort is
`sort_values` with the default unstable quicksort, whose documented
contract is only `DateSorted` (some date-ascending permutation of the
candidates); at a concrete frame with two equal-date candidates that
contract admits an order that is not the original encounter order, so
the claimed stable equal-date tie-break is not a property of the
program. -/
theorem oldest_first_counterexample :
    ∃ l : List (ℕ × Invoice),
      DateSorted [invD1, invD2] payTie l ∧ ¬ l.Pairwise lexDateIdx := by
  refine ⟨[(1, invD2), (0, invD1)], ⟨?_, by decide⟩, ?_⟩
  · have hf : (withIdx 0 [invD1, invD2]).filter
        (fun x => decide (x.2.voen = payTie.voen ∧ 0 < x.2.remaining)) =
        [(0, invD1), (1, invD2)] := by decide
    rw [hf]
    exact List.Perm.swap (0, invD1) (1, invD2) []
  · intro hpw
    have hlex := (List.pairwise_cons.mp hpw).1 (0, invD1) (List.mem_cons_self _ _)
    simp only [lexDateIdx] at hlex
    rcases hlex with h1 | ⟨h1, h2⟩
    · exact absurd h1 (by decide)
    · exact absurd h2 (by decide)

/-- C1 (amended): the candidates are exactly the invoices with the
payment's VOEN and a positive remaining balance, iterated in ascending
date order; the equal-date tie order is not guaranteed by the program
(see `oldest_first_counterexample`), and under every candidate order
the sort contract admits, a payment smaller than the older invoice's
remaining balance is applied entirely to the older invoice and never
to the newer one: with candidate set `{(i, inv1), (j, inv2)}` and
`inv1` strictly older, the date order forces `inv1` first, the loop
emits a single matched row applying the full amount to `i`, and the
invoice at `j` is untouched; the engine's own order satisfies the
contract, so the engine's behaviour is an instance. -/
theorem oldest_first (st : List Invoice) (p : Payment) (i j : ℕ) (inv1 inv2 : Invoice)
    (cands : List (ℕ × Invoice)) (hc : DateSorted st p cands)
    (hset : cands.Perm [(i, inv1), (j, inv2)])
    (hd : inv1.date < inv2.date)
    (h0 : 0 < p.amount) (hlt : p.amount < inv1.remaining) :
    DateSorted st p (matchingInvoices st p) ∧
    cands = [(i, inv1), (j, inv2)] ∧
    (∃ e, (applyCands p cands st p.amount false).events = [e] ∧
      e.outcome = Outcome.matchedToInvoice ∧ e.invoiceIdx = some i ∧
      e.applied = p.amount) ∧
    (applyCands p cands st p.amount false).state[j]? = st[j]? ∧
    sumAppliedTo j (applyCands p cands st p.amount false).events = 0 ∧
    (matchingInvoices st p = [(i, inv1), (j, inv2)] →
      (∃ e, (processPayment st p).2 = [e] ∧ e.outcome = Outcome.matchedToInvoice ∧
        e.invoiceIdx = some i ∧ e.applied = p.amount) ∧
      (processPayment st p).1[j]? = st[j]?) := by
  have hfpair : ((withIdx 0 st).filter
      (fun x => decide (x.2.voen = p.voen ∧ 0 < x.2.remaining))).Pairwise
      (fun a b => (a : ℕ × Invoice).1 < b.1) := (withIdx_pairwise st 0).filter _
  have hpp : ([(i, inv1), (j, inv2)] : List (ℕ × Invoice)).Perm
      ((withIdx 0 st).filter (fun x => decide (x.2.voen = p.voen ∧ 0 < x.2.remaining))) :=
    hset.symm.trans hc.1
  have hij : i ≠ j := by
    have hne := (hpp.pairwise_iff (fun hxy => Ne.symm hxy)).mpr
      (hfpair.imp (fun hlt' => Nat.ne_of_lt hlt'))
    exact (List.pairwise_cons.mp hne).1 (j, inv2) (List.mem_cons_self _ _)
  have hcands : cands = [(i, inv1), (j, inv2)] := by
    rcases perm_pair hset with hcc | hcc
    · exact hcc
    · exfalso
      have hcp := hc.2
      rw [hcc] at hcp
      have hba := (List.pairwise_cons.mp hcp).1 (i, inv1) (List.mem_cons_self _ _)
      rw [dateLe_true_iff] at hba
      exact absurd hba (not_le.mpr hd)
  have hnn : ¬ p.amount ≤ 0 := not_le.mpr h0
  have happ : min p.amount inv1.remaining = p.amount := min_eq_left (le_of_lt hlt)
  have hr : applyCands p [(i, inv1), (j, inv2)] st p.amount false =
      ⟨updateInvoice st i p.amount, 0, true,
        [matchedEvent p i inv1 p.amount (remainingAfter (updateInvoice st i p.amount) i)]⟩ := by
    rw [applyCands, if_neg hnn]
    simp only [happ]
    rw [applyCands_nonpos p [(j, inv2)] (updateInvoice st i p.amount) (p.amount - p.amount)
      true (by simp)]
    simp [sub_self]
  have hsum : sumAppliedTo j
      [matchedEvent p i inv1 p.amount (remainingAfter (updateInvoice st i p.amount) i)] = 0 := by
    rw [sumAppliedTo_cons, sumAppliedTo_nil]
    have hno : ¬((matchedEvent p i inv1 p.amount
        (remainingAfter (updateInvoice st i p.amount) i)).outcome =
          Outcome.matchedToInvoice ∧
        (matchedEvent p i inv1 p.amount
          (remainingAfter (updateInvoice st i p.amount) i)).invoiceIdx = some j) := by
      simp [matchedEvent]
      exact hij
    rw [if_neg hno, add_zero]
  refine ⟨dateSorted_matchingInvoices st p, hcands, ?_, ?_, ?_, ?_⟩
  · rw [hcands, hr]
    exact ⟨_, rfl, rfl, rfl, rfl⟩
  · rw [hcands, hr]
    exact getElem?_updateInvoice_ne st i p.amount hij
  · rw [hcands, hr]
    exact hsum
  · intro hm
    have hstate := processPayment_state st p
    rw [hm, hr] at hstate
    have hev : (processPayment st p).2 =
        [matchedEvent p i inv1 p.amount (remainingAfter (updateInvoice st i p.amount) i)] := by
      rw [processPayment, hm, hr]
      norm_num
    refine ⟨⟨_, hev, rfl, rfl, rfl⟩, ?_⟩
    rw [hstate]
    exact getElem?_updateInvoice_ne st i p.amount hij

/-- Witness for the amended C1: the sample frame lists the newer
invoice first; under the admissible order (and the engine's own
order), the older `invA` is visited first and receives the whole 700
payment, and `invB` is untouched. -/
theorem oldest_first_witness :
    DateSorted [invB, invA] payMain (matchingInvoices [invB, invA] payMain) ∧
    ([(1, invA), (0, invB)] : List (ℕ × Invoice)) = [(1, invA), (0, invB)] ∧
    (∃ e, (applyCands payMain [(1, invA), (0, invB)] [invB, invA]
        payMain.amount false).events = [e] ∧
      e.outcome = Outcome.matchedToInvoice ∧ e.invoiceIdx = some 1 ∧
      e.applied = payMain.amount) ∧
    (applyCands payMain [(1, invA), (0, invB)] [invB, invA]
      payMain.amount false).state[0]? = [invB, invA][0]? ∧
    sumAppliedTo 0 (applyCands payMain [(1, invA), (0, invB)] [invB, invA]
      payMain.amount false).events = 0 ∧
    (matchingInvoices [invB, invA] payMain = [(1, invA), (0, invB)] →
      (∃ e, (processPayment [invB, invA] payMain).2 = [e] ∧
        e.outcome = Outcome.matchedToInvoice ∧ e.invoiceIdx = some 1 ∧
        e.applied = payMain.amount) ∧
      (processPayment [invB, invA] payMain).1[0]? = [invB, invA][0]?) :=
  oldest_first [invB, invA] payMain 1 0 invA invB [(1, invA), (0, invB)]
    ⟨by
      have hf : (withIdx 0 [invB, invA]).filter
          (fun x => decide (x.2.voen = payMain.voen ∧ 0 < x.2.remaining)) =
          [(0, invB), (1, invA)] := by decide
      rw [hf]
      exact List.Perm.swap (0, invB) (1, invA) [],
     by decide⟩
    (List.Perm.refl _) (by decide) (by decide) (by decide)
